import Mathlib

/-!
Verification development for the Gaussian-elimination solver `gauss.cpp`.

The program fills a square matrix `A` and a right-hand side `B` from a
seeded pseudo-random generator, triangularizes the system column by column
(`gauss`), solves it by back substitution, and verifies the solution
(`check`) against a re-initialized copy of the system.

Shallow embedding conventions:
* `double` values are modelled as rationals (`ℚ`); numeric literals of the
  source are taken at their exact decimal value.  Division by zero yields
  `0` in `ℚ` (the source would produce inf/NaN); no settled statement
  depends on a division-by-zero entry.
* The matrix and the vectors are modelled as total functions out of `Nat`;
  the program only ever touches indices below the dimension `n`, which is
  threaded explicitly.
* `tbb::parallel_reduce` / `tbb::parallel_for` are modelled by their
  sequential execution: `main` constructs `tbb::task_scheduler_init init(1)`,
  pinning the scheduler to a single worker thread, so the loop bodies run
  one chunk after another and the captured variables thread through
  deterministically.
* `exit(-1)` (the singular-matrix abort) is modelled by `Except.error i`
  carrying the column index at which the abort happened.
-/

/-- A 2-d array of doubles (`matrix_t`), addressed by (row, column). -/
abbrev Mat : Type := Nat → Nat → ℚ

/-- A 1-d array of doubles (`vector_t`). -/
abbrev Vec : Type := Nat → ℚ

/-- Write `v` at position `(i, j)` of a matrix (the effect of `A[i][j] = v`). -/
def updM (M : Mat) (i j : Nat) (v : ℚ) : Mat :=
  fun a b => if a = i ∧ b = j then v else M a b

/-- Write `v` at position `i` of a vector (the effect of `B[i] = v`). -/
def updV (V : Vec) (i : Nat) (v : ℚ) : Vec :=
  fun a => if a = i then v else V a

/-- View a list of rows as a matrix; entries outside the listed rows and
columns read `0`.  Used only to build concrete test inputs. -/
def matOf (L : List (List ℚ)) : Mat :=
  fun i j => ((L.getD i []).getD j 0)

/-- View a list as a vector; entries beyond the list read `0`. -/
def vecOf (L : List ℚ) : Vec :=
  fun i => L.getD i 0

/-- The state of the random-number stream used by `initializeFromSeed`:
a 48-bit congruential word after `k + 1` steps from the seed.

This is a deterministic stand-in for the stream of
`std::bind(std::uniform_real_distribution<double>(-range, range), std::mt19937(seed))`
in `gauss.cpp` lines 64-67: the exact doubles drawn there are
implementation-defined (the distribution's algorithm is not pinned down by
the C++ standard), so the embedding keeps only the structure the source
guarantees and the claims rely on: one generator is freshly constructed
from `seed` inside every call, hence the `k`-th draw is a pure function of
`(seed, range, k)` and of nothing else. -/
def drawState (seed : Int) (k : Nat) : Nat :=
  Nat.rec (seed.natAbs % 2 ^ 48)
    (fun _ s => (s * 25214903917 + 11) % 2 ^ 48) (k + 1)

/-- The `k`-th number drawn by the generator stream of `initializeFromSeed`,
scaled into the interval `(-range, range)` requested from
`std::uniform_real_distribution<double>(-range, range)`. -/
def mtDraw (seed : Int) (range : Nat) (k : Nat) : ℚ :=
  ((drawState seed k : ℚ) / 2 ^ 48) * (2 * range) - range

/-- The loop of `gauss.cpp` lines 69-71: populate `A` row-major with
successive draws (`A[i][j] = mt_rand()`, draw index `i * n + j`). -/
def fillA (seed : Int) (range n : Nat) (A : Mat) : Mat :=
  (List.range n).foldl
    (fun M i =>
      (List.range n).foldl
        (fun M2 j => updM M2 i j (mtDraw seed range (i * n + j))) M)
    A

/-- The loop of `gauss.cpp` lines 73-74: populate `B` with the draws
following those of `A` (`B[i] = mt_rand()`, draw index `n * n + i`). -/
def fillB (seed : Int) (range n : Nat) (B : Vec) : Vec :=
  (List.range n).foldl
    (fun V i => updV V i (mtDraw seed range (n * n + i))) B

/-- `initializeFromSeed` (`gauss.cpp` lines 61-75): overwrite `A` and then
`B` with successive numbers from one generator stream seeded from `seed`.
The unused local `std::mt19937 seeder(seed)` of line 64 has no effect and
is not modelled. -/
def initializeFromSeed (seed : Int) (range n : Nat) (A : Mat) (B : Vec) :
    Mat × Vec :=
  (fillA seed range n A, fillB seed range n B)

/-- The elimination state: the matrix `A` and right-hand side `B` mutated
in place by `gauss`. -/
structure GState where
  A : Mat
  B : Vec

/-- The value of the shared variable `big` after the pivot search of column
`i` (`gauss.cpp` lines 98-122).  `big` starts at `abs(A[i][i])` (line 98)
and is captured by reference in the `parallel_reduce` body, which raises it
whenever it sees a strictly larger `abs(A[k][i])` over `k` in `[i+1, n)`
(lines 108-114).  Under the single-thread scheduler the chunks run in
order, so the final value is this left fold. -/
def pivotBig (A : Mat) (n i : Nat) : ℚ :=
  (List.range' (i + 1) (n - (i + 1))).foldl
    (fun b k => if |A k i| > b then |A k i| else b) |A i i|

/-- The value of the variable `row` that `gauss.cpp` line 130 swaps with:
`row` is initialized to `i` (line 99) and never updated afterwards, because
the `parallel_reduce` body's parameter `int row` (line 107) shadows it —
the assignments `row = k` of line 111 hit the lambda-local copy — and the
value returned by `parallel_reduce` (the reduced lambda-local row) is
discarded (lines 104-122 form an expression statement).  So the swap of
lines 130-131 always swaps row `i` with itself. -/
def pivotRow (_A : Mat) (_n i : Nat) : Nat := i

/-- The combine lambda of the pivot-search `parallel_reduce`
(`gauss.cpp` lines 116-121): keep `a` when `abs(A[a][i]) > abs(A[b][i])`,
otherwise keep `b`. -/
def pivotCombine (A : Mat) (i a b : Nat) : Nat :=
  if |A a i| > |A b i| then a else b

/-- `std::swap(A[i], A[row])` of `gauss.cpp` line 130: exchange two row
handles of the matrix. -/
def swapRows (A : Mat) (a b : Nat) : Mat :=
  fun r c => if r = a then A b c else if r = b then A a c else A r c

/-- `std::swap(B[i], B[row])` of `gauss.cpp` line 131. -/
def swapV (B : Vec) (a b : Nat) : Vec :=
  fun r => if r = a then B b else if r = b then B a else B r

/-- The body of the elimination `parallel_for` for one row `k`
(`gauss.cpp` lines 143-150): compute `c = -A[k][i] / A[i][i]`, then for
`j` from `i` to `n-1` set `A[k][i]` to exactly `0` when `j == i` and
otherwise do `A[k][j] += c * A[i][j]`, and finally `B[k] += c * B[i]`. -/
def elimRowGo (i k : Nat) (c : ℚ) (l : List Nat) (A : Mat) : Mat :=
  l.foldl (fun M j => updM M k j (if i = j then 0 else M k j + c * M i j)) A

/-- The body of the elimination `parallel_for` for one row `k`
(`gauss.cpp` lines 143-150), assembled from `elimRowGo`. -/
def elimRow (n i k : Nat) (st : GState) : GState :=
  let c : ℚ := -(st.A k i) / st.A i i
  { A := elimRowGo i k c (List.range' i (n - i)) st.A,
    B := updV st.B k (st.B k + c * st.B i) }

/-- The elimination sweep of column `i` over a list of row indices: the
`parallel_for` of `gauss.cpp` lines 142-152 run sequentially (single-thread
scheduler), one row after another. -/
def elimGo (n i : Nat) (l : List Nat) (st : GState) : GState :=
  l.foldl (fun s k => elimRow n i k s) st

/-- The full elimination sweep of column `i`: rows `k` from `i+1` to
`n-1`. -/
def elimPhase (n i : Nat) (st : GState) : GState :=
  elimGo n i (List.range' (i + 1) (n - (i + 1))) st

/-- One iteration of the outer column loop of `gauss` (`gauss.cpp` lines
94-152): pivot search, singularity check (`if (big == 0.0)` aborts the
run, lines 124-127), pivot swap (lines 130-131) and row elimination. -/
def gaussStep (n i : Nat) (st : GState) : Except Nat GState :=
  let big := pivotBig st.A n i
  let row := pivotRow st.A n i
  if big = 0 then Except.error i
  else Except.ok (elimPhase n i ⟨swapRows st.A i row, swapV st.B i row⟩)

/-- The first `m` iterations of the outer column loop, threading the
abort through `Except`. -/
def runCols (n : Nat) (st : GState) (m : Nat) : Except Nat GState :=
  (List.range m).foldl (fun acc i => acc.bind (gaussStep n i)) (Except.ok st)

/-- The whole forward-elimination loop of `gauss`: columns `0` to `n-1`. -/
def gaussForward (n : Nat) (st : GState) : Except Nat GState :=
  runCols n st n

/-- One iteration of the back-substitution loop (`gauss.cpp` lines
157-161) at index `i`: `X[i] = B[i] / A[i][i]`, then
`B[k] -= A[k][i] * X[i]` for `k` from `i-1` down to `0`. -/
def backSubStep (A : Mat) (i : Nat) (BX : Vec × Vec) : Vec × Vec :=
  let X1 := updV BX.2 i (BX.1 i / A i i)
  let B1 := ((List.range i).reverse).foldl
    (fun Bb k => updV Bb k (Bb k - A k i * X1 i)) BX.1
  (B1, X1)

/-- Back substitution over a list of indices, in the order listed. -/
def backSubGo (A : Mat) (l : List Nat) (BX : Vec × Vec) : Vec × Vec :=
  l.foldl (fun p i => backSubStep A i p) BX

/-- The back-substitution loop of `gauss.cpp` lines 157-161: `i` from
`n-1` down to `0`. -/
def backSub (A : Mat) (n : Nat) (BX : Vec × Vec) : Vec × Vec :=
  backSubGo A ((List.range n).reverse) BX

/-- `gauss` (`gauss.cpp` lines 92-162): forward elimination followed by
back substitution; returns the triangularized `A`, the corrected `B` and
the solution `X`, or the index of the column at which the singular-matrix
abort fired. -/
def gauss (n : Nat) (A : Mat) (B X : Vec) : Except Nat (Mat × Vec × Vec) :=
  (gaussForward n ⟨A, B⟩).map fun st =>
    let p := backSub st.A n (st.B, X)
    (st.A, p.1, p.2)

/-- `ans` of `check` (`gauss.cpp` lines 174-176): the recomputed value
`Σ_j  A[i][j] * X[j]` of row `i`. -/
def ansRow (A : Mat) (X : Vec) (n i : Nat) : ℚ :=
  (List.range n).foldl (fun a j => a + A i j * X j) 0

/-- The scale-invariant comparison of `check` (`gauss.cpp` line 180):
`max(abs(ans / b), abs(b / ans))`. -/
def ratioOf (ans b : ℚ) : ℚ :=
  max |ans / b| |b / ans|

/-- The lower bound `0.999999` of the acceptance window of `check`
(`gauss.cpp` line 181), at its exact decimal value. -/
def lowRat : ℚ := 999999 / 1000000

/-- The upper bound `1.00001` of the acceptance window of `check`
(`gauss.cpp` line 181), at its exact decimal value. -/
def highRat : ℚ := 100001 / 100000

/-- The observable outcome of `check`: the success message, or the first
failing index together with the two values printed for it. -/
inductive CheckResult where
  | success : CheckResult
  | mismatch (i : Nat) (ans b : ℚ) : CheckResult
deriving DecidableEq

/-- The loop of `check` (`gauss.cpp` lines 172-186) from index `i`, with
`fuel` iterations left (`fuel = n - i` at every call): if the ratio of row
`i` falls outside the window, report index `i` with both values and stop
(the early `return` of line 184); otherwise continue with row `i+1`. -/
def checkGo (A : Mat) (B X : Vec) (n : Nat) : Nat → Nat → CheckResult
  | _, 0 => CheckResult.success
  | i, fuel + 1 =>
    let ans := ansRow A X n i
    if ratioOf ans (B i) < lowRat ∨ ratioOf ans (B i) > highRat then
      CheckResult.mismatch i ans (B i)
    else
      checkGo A B X n (i + 1) fuel

/-- `check` (`gauss.cpp` lines 171-188): scan the rows from `0`; report
the first row whose ratio leaves the window, else report success. -/
def check (A : Mat) (B X : Vec) (n : Nat) : CheckResult :=
  checkGo A B X n 0 n

/-- The configuration variables of `main` (`gauss.cpp` lines 213-219),
with their defaults: seed 411, size 2048, range 65536, verbose off,
verification on, parallel off. -/
structure Config where
  seed : Int := 411
  size : Int := 2048
  range : Int := 65536
  verbose : Bool := false
  docheck : Bool := true
  parallel : Bool := false
deriving DecidableEq

/-- The command-line options `getopt` can hand to the option loop of
`gauss.cpp` lines 223-250 (an unknown flag instead prints usage and exits
with a non-zero status and never reaches the solver; it is not part of
this type). -/
inductive Opt where
  | r (v : Int) : Opt
  | n (v : Int) : Opt
  | g (v : Int) : Opt
  | h : Opt
  | v : Opt
  | c : Opt
  | p : Opt
deriving DecidableEq

/-- One iteration of the `switch` in the option loop (`gauss.cpp` lines
224-249).  `-h` prints usage and continues; `-v`, `-c`, `-p` negate their
flag. -/
def applyOpt (cfg : Config) : Opt → Config
  | .r v => { cfg with seed := v }
  | .n v => { cfg with size := v }
  | .g v => { cfg with range := v }
  | .h => cfg
  | .v => { cfg with verbose := !cfg.verbose }
  | .c => { cfg with docheck := !cfg.docheck }
  | .p => { cfg with parallel := !cfg.parallel }

/-- The defaults of `main` before the option loop runs. -/
def defaultConfig : Config := {}

/-- The whole option loop: fold the options, in order, over the
defaults. -/
def parseArgs (opts : List Opt) : Config :=
  opts.foldl applyOpt defaultConfig

/-- Which computation the dispatch of `gauss.cpp` lines 271-274 runs:
`if (parallel)` it only prints `Parallel version not yet implemented`,
else it calls `gauss`. -/
inductive RunChoice where
  | runGauss : RunChoice
  | printNotImplemented : RunChoice
deriving DecidableEq

/-- The dispatch of `gauss.cpp` lines 271-274 as a function of the
`parallel` flag. -/
def runChoice (parallel : Bool) : RunChoice :=
  if parallel then RunChoice.printNotImplemented else RunChoice.runGauss

/-- The all-zero matrix: stands for the freshly allocated (uninitialized)
storage of `matrix_t A(size)`; every cell main ever reads is overwritten
by `initializeFromSeed` first. -/
def zeroMat : Mat := fun _ _ => 0

/-- The all-zero vector: freshly allocated storage of `vector_t`. -/
def zeroVec : Vec := fun _ => 0

/-- The observable outcome of one run of `main` (`gauss.cpp` lines
206-298) on an already-parsed configuration. -/
structure MainOut where
  /-- The configuration echo line `r,n,g,p = ...` of line 254. -/
  echo : Int × Int × Int × Bool
  /-- `some` result of `gauss` when the sequential branch ran, `none` when
  the `parallel` branch only printed its message (lines 271-274). -/
  gaussOut : Option (Except Nat (Mat × Vec × Vec))
  /-- The outcome of `check` when it ran (lines 286-291): it runs only
  when `docheck` holds and the run was not aborted inside `gauss`. -/
  checkOut : Option CheckResult
  /-- The process exit status: `-1` from the `exit(-1)` of line 126, else
  the `0` of falling off the end of `main`. -/
  exit : Int

/-- `main` after option parsing (`gauss.cpp` lines 252-298): echo the
configuration, initialize `A` and `B` from the seed, run the dispatch of
lines 271-274, re-initialize and `check` when `docheck` holds, and exit.
On the parallel branch `gauss` never runs and `X` keeps its allocation
value (modelled `0`); `check` still runs on it when `docheck` holds. -/
def mainRun (cfg : Config) : MainOut :=
  let n := cfg.size.toNat
  let rg := cfg.range.toNat
  let AB := initializeFromSeed cfg.seed rg n zeroMat zeroVec
  let gOut : Option (Except Nat (Mat × Vec × Vec)) :=
    match runChoice cfg.parallel with
    | RunChoice.printNotImplemented => none
    | RunChoice.runGauss => some (gauss n AB.1 AB.2 zeroVec)
  let AB2 := initializeFromSeed cfg.seed rg n AB.1 AB.2
  let xv : Vec :=
    match gOut with
    | some (Except.ok res) => res.2.2
    | _ => zeroVec
  let exitCode : Int :=
    match gOut with
    | some (Except.error _) => -1
    | _ => 0
  let cOut : Option CheckResult :=
    match gOut with
    | some (Except.error _) => none
    | _ => if cfg.docheck then some (check AB2.1 AB2.2 xv n) else none
  { echo := (cfg.seed, cfg.size, cfg.range, cfg.parallel),
    gaussOut := gOut, checkOut := cOut, exit := exitCode }

/-- The degenerate input of the spec: `n = 2`, `A = [[0,1],[0,1]]`. -/
def Mdeg : Mat := matOf [[0, 1], [0, 1]]

/-- A right-hand side for the degenerate input. -/
def Bdeg : Vec := vecOf [1, 1]

/-- A 2-by-2 input whose maximum-magnitude entry of column 0 sits in row 1:
`A = [[1,2],[3,4]]`. -/
def Mlater : Mat := matOf [[1, 2], [3, 4]]

/-- Right-hand side `[5, 6]` for `Mlater`. -/
def Blater : Vec := vecOf [5, 6]

/-- A 2-by-2 input whose column-0 candidates tie in magnitude:
`A = [[1,5],[-1,7]]`, so `|A[0][0]| = |A[1][0]| = 1`. -/
def Mtie : Mat := matOf [[1, 5], [-1, 7]]

/-- Row `i` passes the acceptance window of `check`: the ratio
`max(|ans / B[i]|, |B[i] / ans|)` lies in `[0.999999, 1.00001]` (the
negation of the failure test of `gauss.cpp` line 181). -/
def okRow (A : Mat) (B X : Vec) (n j : Nat) : Prop :=
  lowRat ≤ ratioOf (ansRow A X n j) (B j)
    ∧ ratioOf (ansRow A X n j) (B j) ≤ highRat

/-! ## Helper lemmas: single-write folds -/

theorem fillA_row_ne (seed : Int) (range i : Nat) (v : Nat → ℚ) :
    ∀ (l : List Nat) (M : Mat) (a b : Nat), a ≠ i →
      (l.foldl (fun M2 j => updM M2 i j (v j)) M) a b = M a b := by
  intro l
  induction l with
  | nil => intro M a b _; rfl
  | cons j t ih =>
    intro M a b ha
    simp only [List.foldl_cons]
    rw [ih _ a b ha]
    simp [updM, ha]

theorem fillA_col_notin (i : Nat) (v : Nat → ℚ) :
    ∀ (l : List Nat) (M : Mat) (b : Nat), b ∉ l →
      (l.foldl (fun M2 j => updM M2 i j (v j)) M) i b = M i b := by
  intro l
  induction l with
  | nil => intro M b _; rfl
  | cons j t ih =>
    intro M b hb
    simp only [List.foldl_cons]
    have hbj : b ≠ j := fun h => hb (h ▸ List.mem_cons_self j t)
    have hbt : b ∉ t := fun h => hb (List.mem_cons_of_mem j h)
    rw [ih _ b hbt]
    simp [updM, hbj]

theorem fillA_col_in (i : Nat) (v : Nat → ℚ) :
    ∀ (l : List Nat) (M : Mat) (b : Nat), b ∈ l →
      (l.foldl (fun M2 j => updM M2 i j (v j)) M) i b = v b := by
  intro l
  induction l with
  | nil => intro M b hb; cases hb
  | cons j t ih =>
    intro M b hb
    simp only [List.foldl_cons]
    by_cases hbt : b ∈ t
    · exact ih _ b hbt
    · have hbj : b = j := by
        rcases List.mem_cons.mp hb with h | h
        · exact h
        · exact absurd h hbt
      rw [fillA_col_notin i v t _ b hbt]
      simp [updM, hbj]

theorem fillA_rows_notin (seed : Int) (range n : Nat) :
    ∀ (l : List Nat) (M : Mat) (a b : Nat), a ∉ l →
      (l.foldl
        (fun M1 i =>
          (List.range n).foldl
            (fun M2 j => updM M2 i j (mtDraw seed range (i * n + j))) M1) M) a b
        = M a b := by
  intro l
  induction l with
  | nil => intro M a b _; rfl
  | cons i t ih =>
    intro M a b ha
    have hai : a ≠ i := fun h => ha (h ▸ List.mem_cons_self i t)
    have hat : a ∉ t := fun h => ha (List.mem_cons_of_mem i h)
    simp only [List.foldl_cons]
    rw [ih _ a b hat]
    exact fillA_row_ne seed range i _ (List.range n) M a b hai

theorem fillA_lookup (seed : Int) (range n : Nat) :
    ∀ (l : List Nat) (M : Mat) (a b : Nat), a ∈ l → b < n →
      (l.foldl
        (fun M1 i =>
          (List.range n).foldl
            (fun M2 j => updM M2 i j (mtDraw seed range (i * n + j))) M1) M) a b
        = mtDraw seed range (a * n + b) := by
  intro l
  induction l with
  | nil => intro M a b ha _; cases ha
  | cons i t ih =>
    intro M a b ha hb
    simp only [List.foldl_cons]
    by_cases hat : a ∈ t
    · exact ih _ a b hat hb
    · have hai : a = i := by
        rcases List.mem_cons.mp ha with h | h
        · exact h
        · exact absurd h hat
      subst hai
      rw [fillA_rows_notin seed range n t _ a b hat]
      exact fillA_col_in a (fun j => mtDraw seed range (a * n + j)) (List.range n) M b
        (List.mem_range.mpr hb)

theorem fillB_notin (v : Nat → ℚ) :
    ∀ (l : List Nat) (V : Vec) (a : Nat), a ∉ l →
      (l.foldl (fun V2 j => updV V2 j (v j)) V) a = V a := by
  intro l
  induction l with
  | nil => intro V a _; rfl
  | cons j t ih =>
    intro V a ha
    have haj : a ≠ j := fun h => ha (h ▸ List.mem_cons_self j t)
    have hat : a ∉ t := fun h => ha (List.mem_cons_of_mem j h)
    simp only [List.foldl_cons]
    rw [ih _ a hat]
    simp [updV, haj]

theorem fillB_in (v : Nat → ℚ) :
    ∀ (l : List Nat) (V : Vec) (a : Nat), a ∈ l →
      (l.foldl (fun V2 j => updV V2 j (v j)) V) a = v a := by
  intro l
  induction l with
  | nil => intro V a ha; cases ha
  | cons j t ih =>
    intro V a ha
    simp only [List.foldl_cons]
    by_cases hat : a ∈ t
    · exact ih _ a hat
    · have haj : a = j := by
        rcases List.mem_cons.mp ha with h | h
        · exact h
        · exact absurd h hat
      rw [fillB_notin v t _ a hat]
      simp [updV, haj]

theorem fillA_eq (seed : Int) (range n : Nat) (A : Mat) (i j : Nat)
    (hi : i < n) (hj : j < n) :
    fillA seed range n A i j = mtDraw seed range (i * n + j) :=
  fillA_lookup seed range n (List.range n) A i j (List.mem_range.mpr hi) hj

theorem fillB_eq (seed : Int) (range n : Nat) (B : Vec) (i : Nat) (hi : i < n) :
    fillB seed range n B i = mtDraw seed range (n * n + i) :=
  fillB_in (fun j => mtDraw seed range (n * n + j)) (List.range n) B i
    (List.mem_range.mpr hi)

/-! ## Helper lemmas: the pivot-search maximum -/

theorem pivotFold_ge_init (A : Mat) (i : Nat) :
    ∀ (l : List Nat) (b : ℚ),
      b ≤ l.foldl (fun b k => if |A k i| > b then |A k i| else b) b := by
  intro l
  induction l with
  | nil => intro b; exact le_refl b
  | cons k t ih =>
    intro b
    simp only [List.foldl_cons]
    refine le_trans ?_ (ih _)
    by_cases h : |A k i| > b
    · simp [h, le_of_lt h]
    · simp [h]

theorem pivotFold_ge_mem (A : Mat) (i : Nat) :
    ∀ (l : List Nat) (b : ℚ) (k : Nat), k ∈ l →
      |A k i| ≤ l.foldl (fun b k => if |A k i| > b then |A k i| else b) b := by
  intro l
  induction l with
  | nil => intro b k hk; cases hk
  | cons k0 t ih =>
    intro b k hk
    simp only [List.foldl_cons]
    rcases List.mem_cons.mp hk with h | h
    · subst h
      refine le_trans ?_ (pivotFold_ge_init A i t _)
      by_cases hgt : |A k i| > b
      · simp [hgt]
      · simp [hgt]
        exact le_of_not_lt hgt
    · exact ih _ k h

theorem pivotFold_le (A : Mat) (i : Nat) (c : ℚ) :
    ∀ (l : List Nat) (b : ℚ), (∀ k ∈ l, |A k i| ≤ c) → b ≤ c →
      l.foldl (fun b k => if |A k i| > b then |A k i| else b) b ≤ c := by
  intro l
  induction l with
  | nil => intro b _ hb; exact hb
  | cons k0 t ih =>
    intro b hl hb
    simp only [List.foldl_cons]
    refine ih _ (fun k hk => hl k (List.mem_cons_of_mem k0 hk)) ?_
    by_cases hgt : |A k0 i| > b
    · simp [hgt]; exact hl k0 (List.mem_cons_self k0 t)
    · simp [hgt]; exact hb

theorem pivotBig_eq_zero_iff (A : Mat) (n i : Nat) (hi : i < n) :
    pivotBig A n i = 0 ↔ ∀ k, i ≤ k → k < n → A k i = 0 := by
  have hmem : ∀ k, k ∈ List.range' (i + 1) (n - (i + 1)) ↔ i + 1 ≤ k ∧ k < n := by
    intro k
    rw [List.mem_range'_1]
    omega
  constructor
  · intro h0 k hik hkn
    rcases Nat.eq_or_lt_of_le hik with heq | hlt
    · have hle : |A i i| ≤ pivotBig A n i := pivotFold_ge_init A i _ _
      rw [h0] at hle
      have := abs_nonneg (A i i)
      have : |A i i| = 0 := le_antisymm hle this
      rw [← heq]
      exact abs_eq_zero.mp this
    · have hk : k ∈ List.range' (i + 1) (n - (i + 1)) := (hmem k).mpr ⟨hlt, hkn⟩
      have hle : |A k i| ≤ pivotBig A n i := pivotFold_ge_mem A i _ _ k hk
      rw [h0] at hle
      exact abs_eq_zero.mp (le_antisymm hle (abs_nonneg _))
  · intro hz
    have hii : |A i i| = 0 := by rw [hz i (le_refl i) hi]; exact abs_zero
    have hub : pivotBig A n i ≤ 0 := by
      refine pivotFold_le A i 0 _ _ ?_ (le_of_eq hii)
      intro k hk
      rcases (hmem k).mp hk with ⟨h1, h2⟩
      rw [hz k (by omega) h2]
      simp
    have hlb : (0 : ℚ) ≤ pivotBig A n i := by
      refine le_trans (le_of_eq hii.symm) (pivotFold_ge_init A i _ _)
    exact le_antisymm hub hlb

/-! ## Helper lemmas: the column loop as an `Except` fold -/

theorem swapRows_self (A : Mat) (i : Nat) : swapRows A i i = A := by
  funext a b
  unfold swapRows
  by_cases h : a = i
  · subst h; simp
  · simp [h]

theorem swapV_self (B : Vec) (i : Nat) : swapV B i i = B := by
  funext a
  unfold swapV
  by_cases h : a = i
  · subst h; simp
  · simp [h]

theorem gaussStep_error_iff (n i : Nat) (st : GState) (e : Nat) :
    gaussStep n i st = Except.error e ↔ e = i ∧ pivotBig st.A n i = 0 := by
  unfold gaussStep
  by_cases h : pivotBig st.A n i = 0
  · simp [h]
    exact eq_comm
  · simp [h]

theorem gaussStep_ok (n i : Nat) (st st2 : GState)
    (h : gaussStep n i st = Except.ok st2) :
    pivotBig st.A n i ≠ 0 ∧ st2 = elimPhase n i st := by
  unfold gaussStep at h
  by_cases h0 : pivotBig st.A n i = 0
  · simp [h0] at h
  · simp [h0] at h
    refine ⟨h0, ?_⟩
    rw [← h]
    unfold pivotRow
    rw [swapRows_self, swapV_self]

theorem bindFold_error (n : Nat) :
    ∀ (l : List Nat) (e : Nat),
      l.foldl (fun acc i => acc.bind (gaussStep n i)) (Except.error e)
        = Except.error e := by
  intro l
  induction l with
  | nil => intro e; rfl
  | cons i t ih => intro e; simp only [List.foldl_cons]; exact ih e

theorem runCols_zero (n : Nat) (st : GState) : runCols n st 0 = Except.ok st := rfl

theorem runCols_succ (n : Nat) (st : GState) (m : Nat) :
    runCols n st (m + 1) = (runCols n st m).bind (gaussStep n m) := by
  unfold runCols
  rw [List.range_succ, List.foldl_append]
  rfl

theorem runCols_error_char (n : Nat) (st0 : GState) :
    ∀ (m e : Nat), runCols n st0 m = Except.error e →
      e < m ∧ ∃ st, runCols n st0 e = Except.ok st ∧ pivotBig st.A n e = 0 := by
  intro m
  induction m with
  | zero => intro e h; rw [runCols_zero] at h; cases h
  | succ m ih =>
    intro e h
    rw [runCols_succ] at h
    cases hm : runCols n st0 m with
    | error e2 =>
      rw [hm] at h
      simp only [Except.bind] at h
      cases h
      rcases ih e hm with ⟨h1, h2⟩
      exact ⟨Nat.lt_succ_of_lt h1, h2⟩
    | ok st =>
      rw [hm] at h
      simp only [Except.bind] at h
      rcases (gaussStep_error_iff n m st e).mp h with ⟨he, hz⟩
      subst he
      exact ⟨Nat.lt_succ_self _, st, hm, hz⟩

theorem runCols_error_mono (n : Nat) (st0 : GState) (m m' e : Nat)
    (hle : m ≤ m') (h : runCols n st0 m = Except.error e) :
    runCols n st0 m' = Except.error e := by
  induction m' with
  | zero =>
    have : m = 0 := Nat.le_zero.mp hle
    subst this; exact h
  | succ m' ih =>
    rcases Nat.lt_or_ge m (m' + 1) with hlt | hge
    · have hle2 : m ≤ m' := Nat.lt_succ_iff.mp hlt
      rw [runCols_succ, ih hle2]
      rfl
    · have : m = m' + 1 := le_antisymm hle hge
      subst this; exact h

/-! ## Helper lemmas: the elimination sweep -/

theorem elimRowGo_ne (i k : Nat) (c : ℚ) :
    ∀ (l : List Nat) (M : Mat) (a b : Nat), a ≠ k →
      elimRowGo i k c l M a b = M a b := by
  intro l
  induction l with
  | nil => intro M a b _; rfl
  | cons j t ih =>
    intro M a b ha
    unfold elimRowGo at *
    simp only [List.foldl_cons]
    rw [ih _ a b ha]
    simp [updM, ha]

theorem elimRowGo_notin (i k : Nat) (c : ℚ) :
    ∀ (l : List Nat) (M : Mat) (b : Nat), b ∉ l →
      elimRowGo i k c l M k b = M k b := by
  intro l
  induction l with
  | nil => intro M b _; rfl
  | cons j t ih =>
    intro M b hb
    have hbj : b ≠ j := fun h => hb (h ▸ List.mem_cons_self j t)
    have hbt : b ∉ t := fun h => hb (List.mem_cons_of_mem j h)
    unfold elimRowGo at *
    simp only [List.foldl_cons]
    rw [ih _ b hbt]
    simp [updM, hbj]

theorem elimRowGo_cons (i k : Nat) (c : ℚ) (j : Nat) (t : List Nat) (M : Mat) :
    elimRowGo i k c (j :: t) M
      = elimRowGo i k c t (updM M k j (if i = j then 0 else M k j + c * M i j)) :=
  rfl

theorem elimRowGo_in (i k : Nat) (c : ℚ) (hki : k ≠ i) :
    ∀ (l : List Nat) (M : Mat) (b : Nat), l.Nodup → b ∈ l →
      elimRowGo i k c l M k b = if i = b then 0 else M k b + c * M i b := by
  intro l
  induction l with
  | nil => intro M b _ hb; cases hb
  | cons j t ih =>
    intro M b hnd hb
    rw [elimRowGo_cons]
    rcases List.nodup_cons.mp hnd with ⟨hjt, hndt⟩
    by_cases hbt : b ∈ t
    · have hbj : b ≠ j := fun h => hjt (h ▸ hbt)
      rw [ih _ b hndt hbt]
      simp only [updM]
      have h1 : ¬(k = k ∧ b = j) := fun hc => hbj hc.2
      have h2 : ¬(i = k ∧ b = j) := fun hc => hki hc.1.symm
      simp [h1, h2, hbj]
    · have hbj : b = j := by
        rcases List.mem_cons.mp hb with h | h
        · exact h
        · exact absurd h hbt
      subst hbj
      rw [elimRowGo_notin i k c t _ b hjt]
      simp [updM]

theorem elimRow_A_ne (n i k : Nat) (st : GState) (a b : Nat) (ha : a ≠ k) :
    (elimRow n i k st).A a b = st.A a b := by
  unfold elimRow
  exact elimRowGo_ne i k _ _ st.A a b ha

theorem elimRow_B_ne (n i k : Nat) (st : GState) (a : Nat) (ha : a ≠ k) :
    (elimRow n i k st).B a = st.B a := by
  unfold elimRow
  simp [updV, ha]

theorem elimRow_B_k (n i k : Nat) (st : GState) :
    (elimRow n i k st).B k = st.B k + (-(st.A k i) / st.A i i) * st.B i := by
  unfold elimRow
  simp [updV]

theorem elimRow_A_k (n i k : Nat) (st : GState) (b : Nat) (hki : k ≠ i) :
    (elimRow n i k st).A k b =
      if i ≤ b ∧ b < n then
        (if i = b then 0
         else st.A k b + (-(st.A k i) / st.A i i) * st.A i b)
      else st.A k b := by
  unfold elimRow
  simp only
  have hmem : b ∈ List.range' i (n - i) ↔ i ≤ b ∧ b < n := by
    rw [List.mem_range'_1]
    omega
  by_cases hb : i ≤ b ∧ b < n
  · rw [elimRowGo_in i k _ hki _ st.A b (List.nodup_range' i (n - i)) (hmem.mpr hb)]
    simp [hb]
  · rw [elimRowGo_notin i k _ _ st.A b (fun hc => hb (hmem.mp hc))]
    simp [hb]

theorem elimGo_A_ne (n i : Nat) :
    ∀ (l : List Nat) (st : GState) (a b : Nat), a ∉ l →
      (elimGo n i l st).A a b = st.A a b := by
  intro l
  induction l with
  | nil => intro st a b _; rfl
  | cons k t ih =>
    intro st a b ha
    have hak : a ≠ k := fun h => ha (h ▸ List.mem_cons_self k t)
    have hat : a ∉ t := fun h => ha (List.mem_cons_of_mem k h)
    unfold elimGo at *
    simp only [List.foldl_cons]
    rw [ih _ a b hat]
    exact elimRow_A_ne n i k st a b hak

theorem elimGo_B_ne (n i : Nat) :
    ∀ (l : List Nat) (st : GState) (a : Nat), a ∉ l →
      (elimGo n i l st).B a = st.B a := by
  intro l
  induction l with
  | nil => intro st a _; rfl
  | cons k t ih =>
    intro st a ha
    have hak : a ≠ k := fun h => ha (h ▸ List.mem_cons_self k t)
    have hat : a ∉ t := fun h => ha (List.mem_cons_of_mem k h)
    unfold elimGo at *
    simp only [List.foldl_cons]
    rw [ih _ a hat]
    exact elimRow_B_ne n i k st a hak

theorem elimGo_A_mem (n i : Nat) :
    ∀ (l : List Nat) (st : GState) (a b : Nat),
      l.Nodup → i ∉ l → a ∈ l →
      (elimGo n i l st).A a b =
        if i ≤ b ∧ b < n then
          (if i = b then 0
           else st.A a b + (-(st.A a i) / st.A i i) * st.A i b)
        else st.A a b := by
  intro l
  induction l with
  | nil => intro st a b _ _ ha; cases ha
  | cons k t ih =>
    intro st a b hnd hil ha
    rcases List.nodup_cons.mp hnd with ⟨hkt, hndt⟩
    have hik : i ≠ k := fun h => hil (h ▸ List.mem_cons_self k t)
    have hit : i ∉ t := fun h => hil (List.mem_cons_of_mem k h)
    unfold elimGo at *
    simp only [List.foldl_cons]
    by_cases hat : a ∈ t
    · have hak : a ≠ k := fun h => hkt (h ▸ hat)
      rw [ih _ a b hndt hit hat]
      rw [elimRow_A_ne n i k st a b hak,
        elimRow_A_ne n i k st a i hak,
        elimRow_A_ne n i k st i i (Ne.symm hik).symm,
        elimRow_A_ne n i k st i b (fun h => hik h)]
    · have hak : a = k := by
        rcases List.mem_cons.mp ha with h | h
        · exact h
        · exact absurd h hat
      subst hak
      have : (List.foldl (fun s k => elimRow n i k s) (elimRow n i a st) t).A a b
          = (elimRow n i a st).A a b := elimGo_A_ne n i t _ a b hkt
      rw [this]
      exact elimRow_A_k n i a st b (fun h => hik h.symm)

theorem elimGo_B_mem (n i : Nat) :
    ∀ (l : List Nat) (st : GState) (a : Nat),
      l.Nodup → i ∉ l → a ∈ l →
      (elimGo n i l st).B a = st.B a + (-(st.A a i) / st.A i i) * st.B i := by
  intro l
  induction l with
  | nil => intro st a _ _ ha; cases ha
  | cons k t ih =>
    intro st a hnd hil ha
    rcases List.nodup_cons.mp hnd with ⟨hkt, hndt⟩
    have hik : i ≠ k := fun h => hil (h ▸ List.mem_cons_self k t)
    have hit : i ∉ t := fun h => hil (List.mem_cons_of_mem k h)
    unfold elimGo at *
    simp only [List.foldl_cons]
    by_cases hat : a ∈ t
    · have hak : a ≠ k := fun h => hkt (h ▸ hat)
      rw [ih _ a hndt hit hat]
      rw [elimRow_B_ne n i k st a hak,
        elimRow_B_ne n i k st i (fun h => hik h),
        elimRow_A_ne n i k st a i hak,
        elimRow_A_ne n i k st i i (fun h => hik h)]
    · have hak : a = k := by
        rcases List.mem_cons.mp ha with h | h
        · exact h
        · exact absurd h hat
      subst hak
      have : (List.foldl (fun s k => elimRow n i k s) (elimRow n i a st) t).B a
          = (elimRow n i a st).B a := elimGo_B_ne n i t _ a hkt
      rw [this]
      exact elimRow_B_k n i a st

theorem memPhaseRange (n i a : Nat) :
    a ∈ List.range' (i + 1) (n - (i + 1)) ↔ i < a ∧ a < n := by
  rw [List.mem_range'_1]
  omega

theorem elimPhase_A_mem (n i : Nat) (st : GState) (a b : Nat)
    (hia : i < a) (han : a < n) :
    (elimPhase n i st).A a b =
      if i ≤ b ∧ b < n then
        (if i = b then 0
         else st.A a b + (-(st.A a i) / st.A i i) * st.A i b)
      else st.A a b := by
  unfold elimPhase
  exact elimGo_A_mem n i _ st a b (List.nodup_range' _ _)
    (fun h => by have := (memPhaseRange n i i).mp h; omega)
    ((memPhaseRange n i a).mpr ⟨hia, han⟩)

theorem elimPhase_B_mem (n i : Nat) (st : GState) (a : Nat)
    (hia : i < a) (han : a < n) :
    (elimPhase n i st).B a = st.B a + (-(st.A a i) / st.A i i) * st.B i := by
  unfold elimPhase
  exact elimGo_B_mem n i _ st a (List.nodup_range' _ _)
    (fun h => by have := (memPhaseRange n i i).mp h; omega)
    ((memPhaseRange n i a).mpr ⟨hia, han⟩)

theorem elimPhase_A_ne (n i : Nat) (st : GState) (a b : Nat)
    (ha : a ≤ i ∨ n ≤ a) :
    (elimPhase n i st).A a b = st.A a b := by
  unfold elimPhase
  exact elimGo_A_ne n i _ st a b
    (fun h => by have := (memPhaseRange n i a).mp h; omega)

/-! ## Helper lemmas: back substitution -/

theorem bsubFold_notin (d : Nat → ℚ) :
    ∀ (l : List Nat) (Bb : Vec) (a : Nat), a ∉ l →
      (l.foldl (fun Bb k => updV Bb k (Bb k - d k)) Bb) a = Bb a := by
  intro l
  induction l with
  | nil => intro Bb a _; rfl
  | cons k t ih =>
    intro Bb a ha
    have hak : a ≠ k := fun h => ha (h ▸ List.mem_cons_self k t)
    have hat : a ∉ t := fun h => ha (List.mem_cons_of_mem k h)
    simp only [List.foldl_cons]
    rw [ih _ a hat]
    simp [updV, hak]

theorem bsubFold_in (d : Nat → ℚ) :
    ∀ (l : List Nat) (Bb : Vec) (a : Nat), l.Nodup → a ∈ l →
      (l.foldl (fun Bb k => updV Bb k (Bb k - d k)) Bb) a = Bb a - d a := by
  intro l
  induction l with
  | nil => intro Bb a _ ha; cases ha
  | cons k t ih =>
    intro Bb a hnd ha
    rcases List.nodup_cons.mp hnd with ⟨hkt, hndt⟩
    simp only [List.foldl_cons]
    by_cases hat : a ∈ t
    · have hak : a ≠ k := fun h => hkt (h ▸ hat)
      rw [ih _ a hndt hat]
      simp [updV, hak]
    · have hak : a = k := by
        rcases List.mem_cons.mp ha with h | h
        · exact h
        · exact absurd h hat
      subst hak
      rw [bsubFold_notin d t _ a hat]
      simp [updV]

theorem backSubStep_X (A : Mat) (i : Nat) (BX : Vec × Vec) (a : Nat) :
    (backSubStep A i BX).2 a
      = if a = i then BX.1 i / A i i else BX.2 a := by
  unfold backSubStep
  simp [updV]

theorem backSubStep_B (A : Mat) (i : Nat) (BX : Vec × Vec) (a : Nat) :
    (backSubStep A i BX).1 a
      = if a < i then BX.1 a - A a i * (BX.1 i / A i i) else BX.1 a := by
  unfold backSubStep
  simp only
  have hx : updV BX.2 i (BX.1 i / A i i) i = BX.1 i / A i i := by simp [updV]
  by_cases ha : a < i
  · rw [bsubFold_in _ _ _ a
      (List.nodup_reverse.mpr (List.nodup_range i))
      (List.mem_reverse.mpr (List.mem_range.mpr ha))]
    rw [hx]
    simp [ha]
  · rw [bsubFold_notin _ _ _ a
      (fun h => ha (List.mem_range.mp (List.mem_reverse.mp h)))]
    simp [ha]

theorem backSubGo_cons (A : Mat) (x : Nat) (l : List Nat) (BX : Vec × Vec) :
    backSubGo A (x :: l) BX = backSubGo A l (backSubStep A x BX) :=
  rfl

theorem revRange_succ (m c : Nat) :
    (List.range' m (c + 1)).reverse = (m + c) :: (List.range' m c).reverse := by
  rw [List.range'_concat]
  simp

theorem backSubGo_inv (A : Mat) (m : Nat) :
    ∀ (c : Nat) (B X : Vec),
      (∀ j, j < m ∨ m + c ≤ j →
        (backSubGo A ((List.range' m c).reverse) (B, X)).2 j = X j)
      ∧ (∀ k, m ≤ k → k < m + c →
        (backSubGo A ((List.range' m c).reverse) (B, X)).2 k
          = (backSubGo A ((List.range' m c).reverse) (B, X)).1 k / A k k)
      ∧ (∀ k,
        (backSubGo A ((List.range' m c).reverse) (B, X)).1 k
          = B k - ∑ j ∈ Finset.Ico (max m (k + 1)) (m + c),
              A k j * (backSubGo A ((List.range' m c).reverse) (B, X)).2 j) := by
  intro c
  induction c with
  | zero =>
    intro B X
    refine ⟨fun j _ => rfl, fun k h1 h2 => absurd h2 (by omega), fun k => ?_⟩
    have he : Finset.Ico (max m (k + 1)) (m + 0) = ∅ :=
      Finset.Ico_eq_empty (by omega)
    rw [he]
    simp
    rfl
  | succ c ih =>
    intro B X
    simp only [revRange_succ, backSubGo_cons]
    have ih' := ih (backSubStep A (m + c) (B, X)).1 (backSubStep A (m + c) (B, X)).2
    simp only [Prod.mk.eta] at ih'
    rcases ih' with ⟨ih1, ih2, ih3⟩
    have hXtop :
        (backSubGo A ((List.range' m c).reverse) (backSubStep A (m + c) (B, X))).2 (m + c)
          = B (m + c) / A (m + c) (m + c) := by
      rw [ih1 (m + c) (Or.inr (le_refl _)), backSubStep_X]
      simp
    refine ⟨?_, ?_, ?_⟩
    · intro j hj
      rw [ih1 j (by omega), backSubStep_X]
      have hne : ¬(j = m + c) := by omega
      simp [hne]
    · intro k h1 h2
      by_cases hk : k < m + c
      · exact ih2 k h1 hk
      · have hk2 : k = m + c := by omega
        subst hk2
        rw [hXtop, ih3 (m + c)]
        have he : Finset.Ico (max m ((m + c) + 1)) (m + c) = ∅ :=
          Finset.Ico_eq_empty (by omega)
        rw [he]
        rw [backSubStep_B]
        simp
    · intro k
      rw [ih3 k, backSubStep_B]
      by_cases hk : k < m + c
      · have hle : max m (k + 1) ≤ m + c := by omega
        have hsplit := Finset.sum_Ico_succ_top hle
          (fun j => A k j *
            (backSubGo A ((List.range' m c).reverse) (backSubStep A (m + c) (B, X))).2 j)
        have hmc : m + (c + 1) = (m + c) + 1 := by omega
        rw [hmc, hsplit, hXtop]
        simp [hk]
        ring
      · have he1 : Finset.Ico (max m (k + 1)) (m + c) = ∅ :=
          Finset.Ico_eq_empty (by omega)
        have he2 : Finset.Ico (max m (k + 1)) (m + (c + 1)) = ∅ :=
          Finset.Ico_eq_empty (by omega)
        rw [he1, he2]
        simp [hk]

/-! ## Helper lemmas: the verification loop -/

theorem checkGo_success_iff (A : Mat) (B X : Vec) (n : Nat) :
    ∀ (fuel i : Nat),
      checkGo A B X n i fuel = CheckResult.success ↔
        ∀ t, t < fuel → okRow A B X n (i + t) := by
  intro fuel
  induction fuel with
  | zero =>
    intro i
    simp [checkGo]
  | succ fuel ih =>
    intro i
    by_cases hc : ratioOf (ansRow A X n i) (B i) < lowRat
        ∨ ratioOf (ansRow A X n i) (B i) > highRat
    · have heq : checkGo A B X n i (fuel + 1)
          = CheckResult.mismatch i (ansRow A X n i) (B i) := by
        simp [checkGo, hc]
      rw [heq]
      constructor
      · intro h
        exact absurd h (by simp)
      · intro hall
        exfalso
        have h0 := hall 0 (Nat.succ_pos fuel)
        rw [Nat.add_zero] at h0
        rcases hc with h | h
        · exact absurd h0.1 (not_le.mpr h)
        · exact absurd h0.2 (not_le.mpr h)
    · have hok : okRow A B X n i :=
        ⟨le_of_not_lt (fun h => hc (Or.inl h)),
         le_of_not_lt (fun h => hc (Or.inr h))⟩
      have heq : checkGo A B X n i (fuel + 1) = checkGo A B X n (i + 1) fuel := by
        simp [checkGo, hc]
      rw [heq, ih (i + 1)]
      constructor
      · intro h t ht
        cases t with
        | zero => rw [Nat.add_zero]; exact hok
        | succ t =>
          have := h t (by omega)
          rw [show i + 1 + t = i + (t + 1) from by omega] at this
          exact this
      · intro h t ht
        have := h (t + 1) (by omega)
        rw [show i + (t + 1) = i + 1 + t from by omega] at this
        exact this

theorem checkGo_mismatch_char (A : Mat) (B X : Vec) (n : Nat) :
    ∀ (fuel i m : Nat) (a b : ℚ),
      checkGo A B X n i fuel = CheckResult.mismatch m a b →
      i ≤ m ∧ m < i + fuel ∧ a = ansRow A X n m ∧ b = B m
        ∧ (ratioOf a b < lowRat ∨ ratioOf a b > highRat)
        ∧ ∀ j, i ≤ j → j < m → okRow A B X n j := by
  intro fuel
  induction fuel with
  | zero =>
    intro i m a b h
    simp [checkGo] at h
  | succ fuel ih =>
    intro i m a b h
    by_cases hc : ratioOf (ansRow A X n i) (B i) < lowRat
        ∨ ratioOf (ansRow A X n i) (B i) > highRat
    · have heq : checkGo A B X n i (fuel + 1)
          = CheckResult.mismatch i (ansRow A X n i) (B i) := by
        simp [checkGo, hc]
      rw [heq] at h
      injection h with h1 h2 h3
      subst h1
      refine ⟨le_refl _, by omega, h2.symm, h3.symm, ?_, ?_⟩
      · rw [← h2, ← h3]
        exact hc
      · intro j hij hjm
        omega
    · have hok : okRow A B X n i :=
        ⟨le_of_not_lt (fun h => hc (Or.inl h)),
         le_of_not_lt (fun h => hc (Or.inr h))⟩
      have heq : checkGo A B X n i (fuel + 1) = checkGo A B X n (i + 1) fuel := by
        simp [checkGo, hc]
      rw [heq] at h
      rcases ih (i + 1) m a b h with ⟨h1, h2, h3, h4, h5, h6⟩
      refine ⟨by omega, by omega, h3, h4, h5, ?_⟩
      intro j hij hjm
      rcases Nat.eq_or_lt_of_le hij with he | hlt
      · exact he ▸ hok
      · exact h6 j hlt hjm

/-! ## Helper lemmas: flag toggling -/

theorem xor_flip (cnt : Nat) (b : Bool) :
    Bool.xor (decide ((cnt + 1) % 2 = 1)) b
      = Bool.xor (decide (cnt % 2 = 1)) (!b) := by
  by_cases hd : cnt % 2 = 1
  · have h2 : ¬((cnt + 1) % 2 = 1) := by omega
    simp [hd, h2]
  · have h2 : (cnt + 1) % 2 = 1 := by omega
    simp [hd, h2]

theorem applyFold_toggles :
    ∀ (l : List Opt) (cfg : Config),
      ((l.foldl applyOpt cfg).verbose
        = Bool.xor (decide (l.countP (fun o => decide (o = Opt.v)) % 2 = 1))
            cfg.verbose)
      ∧ ((l.foldl applyOpt cfg).docheck
        = Bool.xor (decide (l.countP (fun o => decide (o = Opt.c)) % 2 = 1))
            cfg.docheck)
      ∧ ((l.foldl applyOpt cfg).parallel
        = Bool.xor (decide (l.countP (fun o => decide (o = Opt.p)) % 2 = 1))
            cfg.parallel) := by
  intro l
  induction l with
  | nil =>
    intro cfg
    refine ⟨?_, ?_, ?_⟩ <;> simp
  | cons o t ih =>
    intro cfg
    rcases ih (applyOpt cfg o) with ⟨ihv, ihc, ihp⟩
    simp only [List.foldl_cons, List.countP_cons]
    cases o with
    | r w =>
      exact ⟨by rw [ihv]; simp [applyOpt], by rw [ihc]; simp [applyOpt],
        by rw [ihp]; simp [applyOpt]⟩
    | n w =>
      exact ⟨by rw [ihv]; simp [applyOpt], by rw [ihc]; simp [applyOpt],
        by rw [ihp]; simp [applyOpt]⟩
    | g w =>
      exact ⟨by rw [ihv]; simp [applyOpt], by rw [ihc]; simp [applyOpt],
        by rw [ihp]; simp [applyOpt]⟩
    | h =>
      exact ⟨by rw [ihv]; simp [applyOpt], by rw [ihc]; simp [applyOpt],
        by rw [ihp]; simp [applyOpt]⟩
    | v =>
      exact ⟨by rw [ihv]; simp [applyOpt, xor_flip],
        by rw [ihc]; simp [applyOpt], by rw [ihp]; simp [applyOpt]⟩
    | c =>
      exact ⟨by rw [ihv]; simp [applyOpt],
        by rw [ihc]; simp [applyOpt, xor_flip], by rw [ihp]; simp [applyOpt]⟩
    | p =>
      exact ⟨by rw [ihv]; simp [applyOpt],
        by rw [ihc]; simp [applyOpt], by rw [ihp]; simp [applyOpt, xor_flip]⟩

/-! ## Helper lemmas: the triangularization invariant -/

theorem runColsUpper (n : Nat) (st0 : GState) :
    ∀ (m : Nat) (st : GState), runCols n st0 m = Except.ok st →
      ∀ j k, j < m → j < k → k < n → st.A k j = 0 := by
  intro m
  induction m with
  | zero =>
    intro st _ j k hj _ _
    exact absurd hj (Nat.not_lt_zero j)
  | succ m ih =>
    intro st h j k hjm hjk hkn
    rw [runCols_succ] at h
    cases hm : runCols n st0 m with
    | error e =>
      rw [hm] at h
      simp [Except.bind] at h
    | ok st1 =>
      rw [hm] at h
      simp only [Except.bind] at h
      rcases gaussStep_ok n m st1 st h with ⟨-, hst⟩
      subst hst
      rcases Nat.lt_succ_iff_lt_or_eq.mp hjm with hj | hj
      · by_cases hkm : m < k
        · rw [elimPhase_A_mem n m st1 k j hkm hkn]
          rw [if_neg (fun hc => by omega)]
          exact ih st1 hm j k hj hjk hkn
        · rw [elimPhase_A_ne n m st1 k j (Or.inl (by omega))]
          exact ih st1 hm j k hj hjk hkn
      · subst hj
        rw [elimPhase_A_mem n j st1 k j hjk hkn]
        rw [if_pos ⟨le_refl j, by omega⟩, if_pos rfl]

/-! ## The claims -/

/-- C1 (code bug): the spec requires the row of maximum `|A[r][i]|` to be
swapped into position `i`, and the code's own comments (lines 97 and 129 of
`gauss.cpp`, "find the largest value in this column", "swap so max column
value is in ith row") require the same; but on `A = [[1,2],[3,4]]` the
maximum-magnitude entry of column 0 is in row 1 (`|3| > |1|`) while the
variable `row` used by the swap is still 0 — the `parallel_reduce` lambda's
parameter shadows it and the reduce's result is discarded — so after the
column-0 step row 0 of `A` and `B[0]` are unchanged (`(1, 2, 5)`), not the
swapped-in `(3, 4, 6)` the claim requires. -/
theorem pivot_swap_dead :
    |Mlater 1 0| > |Mlater 0 0|
    ∧ pivotRow Mlater 2 0 = 0
    ∧ (gaussStep 2 0 ⟨Mlater, Blater⟩).map (fun st => (st.A 0 0, st.A 0 1, st.B 0))
        = Except.ok (1, 2, 5) := by
  refine ⟨by decide, rfl, ?_⟩
  norm_num [gaussStep, pivotBig, pivotRow, elimPhase, elimGo, elimRow, elimRowGo,
    swapRows, swapV, updM, updV, Mlater, Blater, matOf, vecOf, Except.map,
    List.range']

/-- C2 (counterexample): the claim says `gauss` always executes regardless
of the `-p` flag; but with `parallel = true` the dispatch of `gauss.cpp`
lines 271-274 takes the print-only branch and `gauss` never runs, while
with the default configuration it does run. -/
theorem parallel_flag_cex :
    runChoice true = RunChoice.printNotImplemented
    ∧ (mainRun { defaultConfig with parallel := true }).gaussOut = none
    ∧ (mainRun defaultConfig).gaussOut ≠ none := by
  refine ⟨rfl, rfl, ?_⟩
  intro h
  rw [show (mainRun defaultConfig).gaussOut
      = some (gauss defaultConfig.size.toNat
          (initializeFromSeed defaultConfig.seed defaultConfig.range.toNat
            defaultConfig.size.toNat zeroMat zeroVec).1
          (initializeFromSeed defaultConfig.seed defaultConfig.range.toNat
            defaultConfig.size.toNat zeroMat zeroVec).2 zeroVec) from rfl] at h
  cases h

/-- C2 (amended): the `-p` flag does change which computation runs: `main`
skips the elimination entirely and only prints the not-implemented message
when `parallel` is toggled on, and `gauss` executes exactly when `parallel`
is false. -/
theorem parallel_flag_dispatch :
    ∀ cfg : Config,
      ((mainRun cfg).gaussOut = none ↔ cfg.parallel = true)
      ∧ (runChoice cfg.parallel = RunChoice.runGauss ↔ cfg.parallel = false) := by
  intro cfg
  have hg : (mainRun cfg).gaussOut
      = (match runChoice cfg.parallel with
         | RunChoice.printNotImplemented => none
         | RunChoice.runGauss => some (gauss cfg.size.toNat
             (initializeFromSeed cfg.seed cfg.range.toNat cfg.size.toNat
               zeroMat zeroVec).1
             (initializeFromSeed cfg.seed cfg.range.toNat cfg.size.toNat
               zeroMat zeroVec).2 zeroVec)) := rfl
  cases hp : cfg.parallel <;> rw [hg, hp] <;> simp [runChoice]

/-- C2 witness: at the default configuration (`parallel = false`) the
dispatch selects the `gauss` branch. -/
theorem parallel_flag_dispatch_witness :
    runChoice defaultConfig.parallel = RunChoice.runGauss :=
  (parallel_flag_dispatch defaultConfig).2.mpr rfl

/-- C3: `initializeFromSeed` is deterministic: its output on every index
the program reads (the `n * n` cells of `A`, the `n` cells of `B`) is
independent of the previous contents of `A` and `B`, so two calls with the
same `(seed, n, range)` produce identical values, and re-initializing
after elimination reproduces the pre-elimination values exactly. -/
theorem initializeFromSeed_deterministic :
    ∀ (seed : Int) (range n : Nat) (A1 A2 : Mat) (B1 B2 : Vec) (i j : Nat),
      (i < n → j < n →
        (initializeFromSeed seed range n A1 B1).1 i j
          = (initializeFromSeed seed range n A2 B2).1 i j)
      ∧ (i < n →
        (initializeFromSeed seed range n A1 B1).2 i
          = (initializeFromSeed seed range n A2 B2).2 i) := by
  intro seed range n A1 A2 B1 B2 i j
  constructor
  · intro hi hj
    unfold initializeFromSeed
    simp only
    rw [fillA_eq seed range n A1 i j hi hj, fillA_eq seed range n A2 i j hi hj]
  · intro hi
    unfold initializeFromSeed
    simp only
    rw [fillB_eq seed range n B1 i hi, fillB_eq seed range n B2 i hi]

/-- C3 witness: two calls at `(seed, range, n) = (411, 65536, 2)` agree on
cell `(1, 0)` of `A` and cell `1` of `B` even when the old contents
differ. -/
theorem initializeFromSeed_deterministic_witness :
    (initializeFromSeed 411 65536 2 zeroMat zeroVec).1 1 0
      = (initializeFromSeed 411 65536 2 Mlater Blater).1 1 0
    ∧ (initializeFromSeed 411 65536 2 zeroMat zeroVec).2 1
      = (initializeFromSeed 411 65536 2 Mlater Blater).2 1 :=
  ⟨(initializeFromSeed_deterministic 411 65536 2 zeroMat Mlater zeroVec Blater 1 0).1
      (by decide) (by decide),
   (initializeFromSeed_deterministic 411 65536 2 zeroMat Mlater zeroVec Blater 1 0).2
      (by decide)⟩

/-- C4: the forward elimination aborts with the singular-matrix report at
column `i` if and only if all previous columns were processed successfully
and every entry `A[k][i]` for `k` in `[i, n)` of the matrix as it stands at
column `i` is exactly zero (equivalently, the selected maximum magnitude is
exactly `0.0`); in particular on `n = 2`, `A = [[0,1],[0,1]]` the abort
fires at column 0. -/
theorem gauss_singular_iff :
    (∀ (n : Nat) (A : Mat) (B : Vec) (i : Nat),
      gaussForward n ⟨A, B⟩ = Except.error i ↔
        i < n ∧ ∃ st, runCols n ⟨A, B⟩ i = Except.ok st ∧
          ∀ k, i ≤ k → k < n → st.A k i = 0)
    ∧ gaussForward 2 ⟨Mdeg, Bdeg⟩ = Except.error 0 := by
  constructor
  · intro n A B i
    constructor
    · intro h
      rcases runCols_error_char n ⟨A, B⟩ n i h with ⟨hin, st, hok, hz⟩
      exact ⟨hin, st, hok, (pivotBig_eq_zero_iff st.A n i hin).mp hz⟩
    · rintro ⟨hin, st, hok, hz⟩
      have hz2 : pivotBig st.A n i = 0 :=
        (pivotBig_eq_zero_iff st.A n i hin).mpr hz
      have hstep : gaussStep n i st = Except.error i :=
        (gaussStep_error_iff n i st i).mpr ⟨rfl, hz2⟩
      have hsucc : runCols n ⟨A, B⟩ (i + 1) = Except.error i := by
        rw [runCols_succ, hok]
        simp only [Except.bind]
        exact hstep
      exact runCols_error_mono n ⟨A, B⟩ (i + 1) n i hin hsucc
  · rfl

/-- C4 witness: the degenerate system's abort at column 0, re-derived by
applying the characterization at `A = [[0,1],[0,1]]`. -/
theorem gauss_singular_iff_witness :
    gaussForward 2 ⟨Mdeg, Bdeg⟩ = Except.error 0 :=
  (gauss_singular_iff.1 2 Mdeg Bdeg 0).mpr
    ⟨by decide, ⟨Mdeg, Bdeg⟩, rfl, by
      intro k _ hk
      interval_cases k <;> rfl⟩

/-- C5: whenever the column loop completes `m` columns without aborting,
every eliminated column is zero below the diagonal (`A[k][j] = 0` for
`j < m`, `j < k < n`), and in particular when `gauss` finishes without the
singular-matrix abort the returned matrix is upper triangular. -/
theorem gauss_upper_triangular :
    (∀ (n : Nat) (st0 : GState) (m : Nat) (st : GState),
      runCols n st0 m = Except.ok st →
      ∀ j k, j < m → j < k → k < n → st.A k j = 0)
    ∧ (∀ (n : Nat) (A : Mat) (B X : Vec) (i k : Nat), i < k → k < n →
      (gauss n A B X).map (fun r => r.1 k i)
        = (gauss n A B X).map (fun _ => (0 : ℚ))) := by
  refine ⟨runColsUpper, ?_⟩
  intro n A B X i k hik hkn
  unfold gauss
  cases h : gaussForward n ⟨A, B⟩ with
  | error e => simp [Except.map]
  | ok st =>
    simp only [Except.map]
    have hz : st.A k i = 0 := runColsUpper n ⟨A, B⟩ n st h i k (by omega) hik hkn
    rw [hz]

/-- C5 witness: applied to `A = [[1,2],[3,4]]`, which eliminates without
aborting, at the subdiagonal entry `(1, 0)`. -/
theorem gauss_upper_triangular_witness :
    (gauss 2 Mlater Blater zeroVec).map (fun r => r.1 1 0)
      = (gauss 2 Mlater Blater zeroVec).map (fun _ => (0 : ℚ)) :=
  gauss_upper_triangular.2 2 Mlater Blater zeroVec 0 1 (by decide) (by decide)

/-- C6: during the elimination of column `i`, every row `k` in `[i+1, n)`
gets `A[k][i]` set to exactly 0, `A[k][j] += c * A[i][j]` for `j` in
`[i+1, n)`, and `B[k] += c * B[i]`, with `c = -A[k][i] / A[i][i]` computed
from the values at the start of the sweep. -/
theorem elimPhase_updates :
    ∀ (n i : Nat) (st : GState) (k : Nat), i < k → k < n →
      (elimPhase n i st).A k i = 0
      ∧ (∀ j, i < j → j < n →
          (elimPhase n i st).A k j
            = st.A k j + (-(st.A k i) / st.A i i) * st.A i j)
      ∧ (elimPhase n i st).B k
          = st.B k + (-(st.A k i) / st.A i i) * st.B i := by
  intro n i st k hik hkn
  refine ⟨?_, ?_, elimPhase_B_mem n i st k hik hkn⟩
  · rw [elimPhase_A_mem n i st k i hik hkn]
    rw [if_pos ⟨le_refl i, by omega⟩, if_pos rfl]
  · intro j hij hjn
    rw [elimPhase_A_mem n i st k j hik hkn]
    rw [if_pos ⟨by omega, hjn⟩, if_neg (by omega)]

/-- C6 witness: the eliminated entry of row 1 of `A = [[1,2],[3,4]]` after
the column-0 sweep is exactly 0. -/
theorem elimPhase_updates_witness :
    (elimPhase 2 0 ⟨Mlater, Blater⟩).A 1 0 = 0 :=
  (elimPhase_updates 2 0 ⟨Mlater, Blater⟩ 1 (by decide) (by decide)).1

/-- C7: back substitution solves strictly in reverse order and writes each
solution index once: the final vectors satisfy `X[k] = B'[k] / A[k][k]`
with `B'[k] = B[k] - Σ_{j > k} A[k][j] * X[j]` for every `k < n`, and
every index at or beyond `n` keeps its prior `X` value. -/
theorem backSub_solution :
    ∀ (A : Mat) (n : Nat) (B X : Vec) (k : Nat),
      (k < n →
        (backSub A n (B, X)).2 k = (backSub A n (B, X)).1 k / A k k)
      ∧ ((backSub A n (B, X)).1 k
          = B k - ∑ j ∈ Finset.Ico (k + 1) n,
              A k j * (backSub A n (B, X)).2 j)
      ∧ (n ≤ k → (backSub A n (B, X)).2 k = X k) := by
  intro A n B X k
  have hb : backSub A n (B, X) = backSubGo A ((List.range' 0 n).reverse) (B, X) := by
    unfold backSub
    rw [List.range_eq_range']
  rcases backSubGo_inv A 0 n B X with ⟨h1, h2, h3⟩
  refine ⟨?_, ?_, ?_⟩
  · intro hk
    rw [hb]
    exact h2 k (Nat.zero_le k) (by omega)
  · rw [hb]
    have hs := h3 k
    have hmax : max 0 (k + 1) = k + 1 := by omega
    have hzn : 0 + n = n := by omega
    rw [hmax, hzn] at hs
    exact hs
  · intro hk
    rw [hb]
    exact h1 k (Or.inr (by omega))

/-- C7 witness: applied to the diagonal system `A = [[2,0],[0,4]]`,
`B = [6,8]` at index 0. -/
theorem backSub_solution_witness :
    (backSub (matOf [[2, 0], [0, 4]]) 2 (vecOf [6, 8], zeroVec)).2 0
      = (backSub (matOf [[2, 0], [0, 4]]) 2 (vecOf [6, 8], zeroVec)).1 0
          / matOf [[2, 0], [0, 4]] 0 0 :=
  (backSub_solution (matOf [[2, 0], [0, 4]]) 2 (vecOf [6, 8]) zeroVec 0).1
    (by decide)

/-- C8: `check` reports success iff every row's ratio
`max(|ans / B[i]|, |B[i] / ans|)` lies within `[0.999999, 1.00001]`; on the
first row outside the window it reports that index together with `ans` and
`B[i]` and checks no further row; and the outcome of the check never
influences the process exit status (toggling `docheck` off leaves the exit
status unchanged). -/
theorem check_outcome :
    (∀ (A : Mat) (B X : Vec) (n : Nat),
      check A B X n = CheckResult.success ↔ ∀ i, i < n → okRow A B X n i)
    ∧ (∀ (A : Mat) (B X : Vec) (n m : Nat) (a b : ℚ),
      check A B X n = CheckResult.mismatch m a b →
      m < n ∧ a = ansRow A X n m ∧ b = B m
        ∧ (ratioOf a b < lowRat ∨ ratioOf a b > highRat)
        ∧ ∀ j, j < m → okRow A B X n j)
    ∧ (∀ cfg : Config,
      (mainRun cfg).exit = (mainRun { cfg with docheck := false }).exit) := by
  refine ⟨?_, ?_, fun _ => rfl⟩
  · intro A B X n
    unfold check
    rw [checkGo_success_iff A B X n n 0]
    constructor
    · intro h i hi
      have hh := h i hi
      rwa [Nat.zero_add] at hh
    · intro h t ht
      rw [Nat.zero_add]
      exact h t ht
  · intro A B X n m a b h
    unfold check at h
    rcases checkGo_mismatch_char A B X n n 0 m a b h with ⟨h1, h2, h3, h4, h5, h6⟩
    exact ⟨by omega, h3, h4, h5, fun j hj => h6 j (Nat.zero_le j) hj⟩

/-- C8 witness: the 1-by-1 identity-like system checks successfully, and
toggling `docheck` does not change the exit status of the default run. -/
theorem check_outcome_witness :
    check (matOf [[1]]) (vecOf [2]) (vecOf [2]) 1 = CheckResult.success
    ∧ (mainRun defaultConfig).exit
        = (mainRun { defaultConfig with docheck := false }).exit := by
  refine ⟨?_, check_outcome.2.2 defaultConfig⟩
  refine (check_outcome.1 (matOf [[1]]) (vecOf [2]) (vecOf [2]) 1).mpr ?_
  intro i hi
  have h0 : i = 0 := by omega
  subst h0
  constructor <;>
    norm_num [okRow, ansRow, ratioOf, lowRat, highRat, matOf, vecOf,
      List.range_succ]

/-- C9 (counterexample): the claim says the combine step keeps the
earlier-found candidate on an exact magnitude tie; but on
`A = [[1,5],[-1,7]]`, where `|A[0][0]| = |A[1][0]|`, the combiner returns
its second argument `1`, not the earlier candidate `0`. -/
theorem pivotCombine_tie_cex :
    |Mtie 0 0| = |Mtie 1 0| ∧ pivotCombine Mtie 0 0 1 = 1 ∧ (1 : Nat) ≠ 0 := by
  refine ⟨by decide, ?_, by decide⟩
  norm_num [pivotCombine, Mtie, matOf]

/-- C9 (amended): when two pivot candidates have exactly equal magnitudes,
the combine lambda keeps the later-found (second) candidate — the bias is
toward the higher row index, not the lower one. -/
theorem pivotCombine_tie_keeps_second :
    ∀ (A : Mat) (i a b : Nat), |A a i| = |A b i| → pivotCombine A i a b = b := by
  intro A i a b h
  unfold pivotCombine
  rw [h]
  simp

/-- C9 witness: the tie at column 0 of `A = [[1,5],[-1,7]]` resolves to
row 1. -/
theorem pivotCombine_tie_keeps_second_witness :
    pivotCombine Mtie 0 0 1 = 1 :=
  pivotCombine_tie_keeps_second Mtie 0 0 1 (by decide)

/-- C10: each occurrence of `-v`, `-c`, `-p` negates its boolean, so a
double application is the identity on the configuration, and after parsing
any option list each flag equals its default exactly when the flag occurred
an even number of times (verbose and parallel default false, docheck
defaults true). -/
theorem toggle_flags_involution :
    (∀ cfg : Config,
      applyOpt (applyOpt cfg Opt.v) Opt.v = cfg
      ∧ applyOpt (applyOpt cfg Opt.c) Opt.c = cfg
      ∧ applyOpt (applyOpt cfg Opt.p) Opt.p = cfg)
    ∧ (∀ opts : List Opt,
      (parseArgs opts).verbose
        = decide (opts.countP (fun o => decide (o = Opt.v)) % 2 = 1)
      ∧ (parseArgs opts).docheck
        = decide (opts.countP (fun o => decide (o = Opt.c)) % 2 = 0)
      ∧ (parseArgs opts).parallel
        = decide (opts.countP (fun o => decide (o = Opt.p)) % 2 = 1)) := by
  constructor
  · intro cfg
    refine ⟨?_, ?_, ?_⟩ <;> (cases cfg; simp [applyOpt])
  · intro opts
    rcases applyFold_toggles opts defaultConfig with ⟨hv, hc, hp⟩
    unfold parseArgs
    refine ⟨?_, ?_, ?_⟩
    · rw [hv]
      simp [defaultConfig]
    · rw [hc]
      by_cases h2 : opts.countP (fun o => decide (o = Opt.c)) % 2 = 1
      · have h0 : ¬(opts.countP (fun o => decide (o = Opt.c)) % 2 = 0) := by omega
        simp [h2, h0, defaultConfig]
      · have h0 : opts.countP (fun o => decide (o = Opt.c)) % 2 = 0 := by omega
        simp [h2, h0, defaultConfig]
    · rw [hp]
      simp [defaultConfig]
